import Mathlib

/-!
Verification of the key-slot management logic of `MetaRampExt.py`.

The extension manages a custom parameter page holding, for each ramp key with
integer index `i`, three parameter groups: a float `Position{i}`, an RGBA
tuplet `Color{i}` (four components; destroying any component destroys the
tuplet), and a pulse `Delete{i}` whose `readOnly` flag stores the
delete-armed state.  We embed the page as a list of such groups in display
order, and the component parameters `Sortkeys`, `Newkeyposition` and
`Enabledelete` as fields of the state.  Float parameter values are embedded
as rationals: positions are clamped to [0,1] so no NaN/infinity arises and
comparison of such floats coincides with the rational order.
-/

namespace MetaRampExt

/-- One custom parameter group on the keys page: `Position{i}`, `Color{i}`
(an RGBA tuplet, created by `appendRGBA` as a single page entity) or
`Delete{i}` (a pulse whose `readOnly` flag is the disarmed state). -/
inductive PGroup where
  | position : Nat → ℚ → PGroup
  | color : Nat → ℚ → ℚ → ℚ → ℚ → PGroup
  | delete : Nat → Bool → PGroup
deriving DecidableEq, Repr

/-- The digits in the group's parameter name (`tdu.digits`). -/
def PGroup.idx : PGroup → Nat
  | .position i _ => i
  | .color i _ _ _ _ => i
  | .delete i _ => i

/-- Whether the group's name matches the pattern `Position*`. -/
def PGroup.isPosition : PGroup → Bool
  | .position _ _ => true
  | _ => false

/-- Whether the group's name matches the pattern `Color*`. -/
def PGroup.isColor : PGroup → Bool
  | .color _ _ _ _ _ => true
  | _ => false

/-- Whether the group's name matches the pattern `Delete*`. -/
def PGroup.isDelete : PGroup → Bool
  | .delete _ _ => true
  | _ => false

/-- The value of a position parameter (`par.eval()`); junk on other groups. -/
def PGroup.pval : PGroup → ℚ
  | .position _ v => v
  | _ => 0

/-- The state of the extension's owner component: the keys page (a list of
parameter groups in display order) and the three component parameters the
script reads (`Sortkeys`, `Newkeyposition`, `Enabledelete`). -/
structure MetaRamp where
  page : List PGroup
  Sortkeys : Bool
  Newkeyposition : ℚ
  Enabledelete : Bool
deriving DecidableEq, Repr

/-- `sort_keys_enabled`: read the `Sortkeys` toggle. -/
def sort_keys_enabled (s : MetaRamp) : Bool := s.Sortkeys

/-- `get_position_params`: `ownerComp.pars('Position*')`, in page order. -/
def get_position_params (s : MetaRamp) : List PGroup :=
  s.page.filter fun g => g.isPosition

/-- `get_num_params`: number of position parameters. -/
def get_num_params (s : MetaRamp) : Nat :=
  (get_position_params s).length

/-- `get_position_param_digits`: `tdu.digits` of each position parameter name. -/
def get_position_param_digits (s : MetaRamp) : List Nat :=
  (get_position_params s).map PGroup.idx

/-- `create_key_params`: append a `Position{idx}` float (value
`new_position_val`), a `Color{idx}` RGBA tuplet initialised to grey with
alpha 1, and a `Delete{idx}` pulse whose `readOnly` is the negation of the
`Enabledelete` value.  (Display metadata — `startSection`, defaults, clamp
flags — carries no claim-relevant state and is not represented.) -/
def create_key_params (idx : Nat) (new_position_val : ℚ) (enable_delete_val : Bool)
    (s : MetaRamp) : MetaRamp :=
  { s with page := s.page ++
      [PGroup.position idx new_position_val,
       PGroup.color idx (1/2) (1/2) (1/2) 1,
       PGroup.delete idx (!enable_delete_val)] }

/-- `ideal_numbers_present` in `OnAddKey`: `list(range(l + 1))` with the last
element overwritten by `99`. -/
def ideal_numbers (l : Nat) : List Nat :=
  (List.range (l + 1)).set l 99

/-- The `missing` list in `OnAddKey`: ideal values not among the existing
position parameter digits, in ideal order. -/
def missing_numbers (digits : List Nat) : List Nat :=
  (ideal_numbers digits.length).filter fun i => !(decide (i ∈ digits))

/-- Python's `max` over a list of naturals (the source only applies it to
nonempty lists, where the `0` seed is absorbed). -/
def py_max (l : List Nat) : Nat := l.foldl max 0

/-- The `next_idx` computation of `OnAddKey`: the first missing ideal value
if any, else one more than the maximum of the ideal domain without its last
element. -/
def next_idx (digits : List Nat) : Nat :=
  match missing_numbers digits with
  | m :: _ => m
  | [] => py_max (ideal_numbers digits.length).dropLast + 1

/-- Python string `<=` on lists of characters (lexicographic by code point),
used by `sorted` to break ties between parameter names. -/
def chars_le : List Char → List Char → Bool
  | [], _ => true
  | _ :: _, [] => false
  | a :: as, b :: bs =>
    if a.toNat < b.toNat then true
    else if a.toNat = b.toNat then chars_le as bs
    else false

/-- Comparison of the parameter names `Position{i}` and `Position{j}`: the
shared prefix makes it the Python string comparison of the decimal digits. -/
def name_le (i j : Nat) : Bool :=
  chars_le (Nat.repr i).data (Nat.repr j).data

/-- The order `sorted` uses on the `(value, name)` tuples of
`position_info`: by value, ties by name. -/
def pair_le (a b : ℚ × Nat) : Prop :=
  (if a.1 < b.1 then true else if a.1 = b.1 then name_le a.2 b.2 else false) = true

instance pair_le_dec : DecidableRel pair_le :=
  fun _ _ => instDecidableEqBool _ _

/-- `position_info`: the `(par.eval(), name)` tuples of the position
parameters in page order, names represented by their digits. -/
def position_info (s : MetaRamp) : List (ℚ × Nat) :=
  (get_position_params s).map fun g => (g.pval, g.idx)

/-- `ownerComp.par['Position{i}']`: the first (in a live page, the unique)
position group with digits `i`. -/
def find_position (page : List PGroup) (i : Nat) : Option PGroup :=
  page.find? fun g => g.isPosition && g.idx == i

/-- `ownerComp.par['Color{i}…']`: the color tuplet with digits `i`. -/
def find_color (page : List PGroup) (i : Nat) : Option PGroup :=
  page.find? fun g => g.isColor && g.idx == i

/-- `ownerComp.par['Delete{i}']`: the delete pulse with digits `i`. -/
def find_delete (page : List PGroup) (i : Nat) : Option PGroup :=
  page.find? fun g => g.isDelete && g.idx == i

/-- The three groups named `Position{i}`, `Color{i}`, `Delete{i}`, in the
order `SwitchKeyPositions` lists them for `keys_page.sort`. -/
def key_triple (page : List PGroup) (i : Nat) : List PGroup :=
  (find_position page i).toList ++ (find_color page i).toList ++ (find_delete page i).toList

/-- The page order produced by `keys_page.sort(*expanded_param_list)`: the
named groups arranged in the listed order. -/
def arrange (page : List PGroup) : List (ℚ × Nat) → List PGroup
  | [] => []
  | p :: ps => key_triple page p.2 ++ arrange page ps

/-- `sorted_pos_info`: Python's stable `sorted` of the `(value, name)`
tuples, modelled by insertion sort with the tuple order (both are stable
sorts for the same total preorder, so they agree). -/
def sorted_position_info (s : MetaRamp) : List (ℚ × Nat) :=
  List.insertionSort pair_le (position_info s)

/-- `SwitchKeyPositions`: when `Sortkeys` is enabled, sort the
`(value, name)` tuples of the position parameters (Python's stable `sorted`
on tuples) and reorder the page so each key's position, color and delete
groups appear together in that order. -/
def SwitchKeyPositions (s : MetaRamp) : MetaRamp :=
  if sort_keys_enabled s then
    { s with page := arrange s.page (sorted_position_info s) }
  else s

/-- `OnAddKey`: compute the next index from the current position parameter
digits, create the three parameter groups for it (reading `Newkeyposition`
and `Enabledelete`), then run `SwitchKeyPositions`.  The first component is
the index the new key was created at. -/
def OnAddKey (s : MetaRamp) : Nat × MetaRamp :=
  let digits := get_position_param_digits s
  let nIdx := next_idx digits
  (nIdx, SwitchKeyPositions (create_key_params nIdx s.Newkeyposition s.Enabledelete s))

/-- The per-group effect of `OnEnableDelete`: set `readOnly` of every delete
pulse except `Delete0` and `Delete99` to the negation of the new toggle
value; leave every other parameter untouched. -/
def toggle_delete (b : Bool) : PGroup → PGroup
  | .delete i ro => if i = 0 ∨ i = 99 then .delete i ro else .delete i (!b)
  | g => g

/-- `OnEnableDelete`: the host has set the `Enabledelete` toggle to `b`; the
callback updates the `readOnly` state of all non-reserved delete pulses. -/
def OnEnableDelete (b : Bool) (s : MetaRamp) : MetaRamp :=
  { s with Enabledelete := b, page := s.page.map (toggle_delete b) }

/-- Outcome of a delete request. -/
inductive DeleteOutcome where
  | ok
  | noop
  | notFound
deriving DecidableEq, Repr

/-- The three `destroy()` calls of `OnDeleteKey`, in source order: the pulse
parameter itself, then `Color{i}r` (destroying a component of an RGBA tuplet
destroys the tuplet), then `Position{i}`. -/
def destroy_key_params (i : Nat) (page : List PGroup) : List PGroup :=
  ((page.filter fun g => !(g.isDelete && g.idx == i)).filter
      fun g => !(g.isColor && g.idx == i)).filter
    fun g => !(g.isPosition && g.idx == i)

/-- Modelled from the spec: `OnDeleteKey` in the source is invoked by the
host with a live pulse parameter, so no code path for a non-existent index
exists under `src/`; §7 of the spec prescribes a NotFound outcome with no
state change for that case. -/
def missing_key_result (s : MetaRamp) : DeleteOutcome × MetaRamp :=
  (.notFound, s)

/-- `OnDeleteKey` for the key with digits `i`: a no-op when `i` is `0` or
`99`; otherwise, when the `Delete{i}` pulse exists, destroy the delete,
color and position groups of the key. -/
def OnDeleteKey (i : Nat) (s : MetaRamp) : DeleteOutcome × MetaRamp :=
  if i = 0 ∨ i = 99 then (.noop, s)
  else if s.page.any fun g => g.isDelete && g.idx == i then
    (.ok, { s with page := destroy_key_params i s.page })
  else missing_key_result s

/-- The position value recorded for index `i` (`None` when absent). -/
def posOf (s : MetaRamp) (i : Nat) : Option ℚ :=
  (find_position s.page i).map PGroup.pval

/-- The RGBA values recorded for index `i`. -/
def colorOf (s : MetaRamp) (i : Nat) : Option (ℚ × ℚ × ℚ × ℚ) :=
  (find_color s.page i).bind fun g =>
    match g with
    | .color _ r gr b a => some (r, gr, b, a)
    | _ => none

/-- The `readOnly` state of the delete pulse for index `i`. -/
def deleteROOf (s : MetaRamp) (i : Nat) : Option Bool :=
  (find_delete s.page i).bind fun g =>
    match g with
    | .delete _ ro => some ro
    | _ => none

/-- The digits of the position parameters of a raw page. -/
def pos_digits (page : List PGroup) : List Nat :=
  (page.filter fun g => g.isPosition).map PGroup.idx

/-- The digits of the color tuplets of a raw page. -/
def color_digits (page : List PGroup) : List Nat :=
  (page.filter fun g => g.isColor).map PGroup.idx

/-- The digits of the delete pulses of a raw page. -/
def delete_digits (page : List PGroup) : List Nat :=
  (page.filter fun g => g.isDelete).map PGroup.idx

/-- A live keys page: parameter names are unique (so each kind's digit list
has no duplicate) and color and delete groups only occur for keys that have
a position parameter. -/
def WF (s : MetaRamp) : Prop :=
  (pos_digits s.page).Nodup ∧ (color_digits s.page).Nodup ∧
    (delete_digits s.page).Nodup ∧
    (∀ i ∈ color_digits s.page, i ∈ pos_digits s.page) ∧
    (∀ i ∈ delete_digits s.page, i ∈ pos_digits s.page)

/-- Claim C4's invariant on a digit list: 0 and 99 present, no duplicates,
all values in `[0, 99]`. -/
def good_digits (d : List Nat) : Prop :=
  0 ∈ d ∧ 99 ∈ d ∧ d.Nodup ∧ ∀ i ∈ d, i ≤ 99

/-- The invariant of claim C4: slots 0 and 99 exist, and the slot indices
are unique integers in `[0, 99]`. -/
def KeyInv (s : MetaRamp) : Prop :=
  good_digits (get_position_param_digits s)

/-- The initial state of the component: reserved slots 0 (position 0) and 99
(position 1) present, sorting off, delete disarmed. -/
def init : MetaRamp :=
  { page := [.position 0 0, .color 0 0 0 0 1, .delete 0 true,
             .position 99 1, .color 99 0 0 0 1, .delete 99 true],
    Sortkeys := false, Newkeyposition := 1, Enabledelete := false }

/-- A state with slots {0, 1, 3, 99}: slot 2 is a gap. -/
def gap_state : MetaRamp :=
  { page := [.position 0 0, .color 0 0 0 0 1, .delete 0 true,
             .position 1 1, .color 1 0 0 0 1, .delete 1 false,
             .position 3 3, .color 3 0 0 0 1, .delete 3 false,
             .position 99 10, .color 99 0 0 0 1, .delete 99 true],
    Sortkeys := false, Newkeyposition := 2, Enabledelete := false }

/-- A state with slots {0, 1, 99}. -/
def three_state : MetaRamp :=
  { page := [.position 0 0, .color 0 0 0 0 1, .delete 0 true,
             .position 1 1, .color 1 0 0 0 1, .delete 1 false,
             .position 99 10, .color 99 0 0 0 1, .delete 99 true],
    Sortkeys := false, Newkeyposition := 2, Enabledelete := false }

/-- A state with sorting enabled and slots 0, 1, 2, 99 at positions
0, 7, 3, 10: slots 1 and 2 are out of position order. -/
def ramp_state : MetaRamp :=
  { page := [.position 0 0, .color 0 0 0 0 1, .delete 0 true,
             .position 1 7, .color 1 1 0 0 1, .delete 1 false,
             .position 2 3, .color 2 0 1 0 1, .delete 2 false,
             .position 99 10, .color 99 1 1 1 1, .delete 99 true],
    Sortkeys := true, Newkeyposition := 2, Enabledelete := false }

/-- The triples of a fully occupied page, indices `0 … n-1`. -/
def full_triples : Nat → List PGroup
  | 0 => []
  | n + 1 => full_triples n ++
      [.position n 0, .color n 0 0 0 1, .delete n true]

/-- A state in which every index of the 100-slot space `[0, 99]` is
occupied. -/
def full_state : MetaRamp :=
  { page := full_triples 100,
    Sortkeys := false, Newkeyposition := 1, Enabledelete := false }

/-- Iterated `OnAddKey`. -/
def add_many : Nat → MetaRamp → MetaRamp
  | 0, s => s
  | n + 1, s => add_many n (OnAddKey s).2

/-- Formalisation of claim C2's words: the existing non-reserved slots
(digits other than 0 and 99). -/
def claim_nonreserved (digits : List Nat) : List Nat :=
  digits.filter fun i => !(i == 0) && !(i == 99)

/-- Formalisation of claim C2's words: the integers `0 … n-1` with the last
element replaced by `99`. -/
def claim_ideal (n : Nat) : List Nat :=
  (List.range n).set (n - 1) 99

/-- Formalisation of claim C2's words: the ideal-domain values missing from
the existing slot indices. -/
def claim_missing (n : Nat) (digits : List Nat) : List Nat :=
  (claim_ideal n).filter fun i => !(decide (i ∈ digits))

/-- Formalisation of claim C2's assignment policy, as the claim states it:
`n` = number of existing non-reserved slots + 1; ideal domain
`0 … n-1` with the last element replaced by 99; assign the smallest
ideal-domain value missing from the existing indices, else
`max(ideal domain excluding 99) + 1`. -/
def claim_policy (digits : List Nat) : Nat :=
  match (claim_missing ((claim_nonreserved digits).length + 1) digits).min? with
  | some m => m
  | none =>
    py_max ((claim_ideal ((claim_nonreserved digits).length + 1)).filter
      fun i => !(i == 99)) + 1

/-- The amended policy of claim C2, changed only in how `n` is counted:
`n` = number of existing slots + 1, counting the reserved slots 0 and 99.
The rest reads as the claim states it. -/
def claim_policy_amended (digits : List Nat) : Nat :=
  match (claim_missing (digits.length + 1) digits).min? with
  | some m => m
  | none =>
    py_max ((claim_ideal (digits.length + 1)).filter fun i => !(i == 99)) + 1

/-- One operation of claim C4: the host sets the input parameters and
invokes `OnAddKey`, invokes `OnDeleteKey` for some index, toggles
`Enabledelete` (running `OnEnableDelete`), triggers `SwitchKeyPositions`,
or flips the `Sortkeys` configuration toggle. -/
inductive Step : MetaRamp → MetaRamp → Prop where
  | add (q : ℚ) (b : Bool) (s : MetaRamp) :
      Step s (OnAddKey { s with Newkeyposition := q, Enabledelete := b }).2
  | del (i : Nat) (s : MetaRamp) : Step s (OnDeleteKey i s).2
  | enable (b : Bool) (s : MetaRamp) : Step s (OnEnableDelete b s)
  | sortPage (s : MetaRamp) : Step s (SwitchKeyPositions s)
  | setSort (b : Bool) (s : MetaRamp) : Step s { s with Sortkeys := b }

/-- States reachable from `init` by the operations of claim C4. -/
inductive Reachable : MetaRamp → Prop where
  | init : Reachable init
  | step {s t : MetaRamp} : Reachable s → Step s t → Reachable t

/-- `Step` with `OnAddKey` restricted to states that still have a free index
in the 100-slot space (at most 99 position parameters). -/
inductive StepCap : MetaRamp → MetaRamp → Prop where
  | add (q : ℚ) (b : Bool) (s : MetaRamp) (h : get_num_params s ≤ 99) :
      StepCap s (OnAddKey { s with Newkeyposition := q, Enabledelete := b }).2
  | del (i : Nat) (s : MetaRamp) : StepCap s (OnDeleteKey i s).2
  | enable (b : Bool) (s : MetaRamp) : StepCap s (OnEnableDelete b s)
  | sortPage (s : MetaRamp) : StepCap s (SwitchKeyPositions s)
  | setSort (b : Bool) (s : MetaRamp) : StepCap s { s with Sortkeys := b }

/-- States reachable from `init` without ever exceeding the index space. -/
inductive ReachableCap : MetaRamp → Prop where
  | init : ReachableCap init
  | step {s t : MetaRamp} : ReachableCap s → StepCap s t → ReachableCap t

/-! ### Generic list lemmas -/

theorem find?_eq_some_of_unique {α : Type} {p : α → Bool} {l : List α} {a : α}
    (ha : a ∈ l) (hpa : p a = true) (hu : ∀ b ∈ l, p b = true → b = a) :
    l.find? p = some a := by
  induction l with
  | nil => cases ha
  | cons x xs ih =>
    by_cases hx : p x = true
    · have hxa : x = a := hu x (List.mem_cons_self x xs) hx
      subst hxa
      exact List.find?_cons_of_pos xs hx
    · have hax : a ∈ xs := by
        rcases List.mem_cons.mp ha with rfl | h
        · exact absurd hpa hx
        · exact h
      rw [List.find?_cons_of_neg xs hx]
      exact ih hax fun b hb hpb => hu b (List.mem_cons_of_mem x hb) hpb

theorem min?_eq_head_of_sorted {a : Nat} {t : List Nat}
    (h : List.Sorted (· ≤ ·) (a :: t)) : (a :: t).min? = some a := by
  induction t generalizing a with
  | nil => rfl
  | cons b t ih =>
    have h1 := List.sorted_cons.mp h
    have hb : (b :: t).min? = some b := ih h1.2
    rw [List.min?_cons, hb]
    simp [min_eq_left (h1.1 b (List.mem_cons_self b t))]

/-! ### Facts about the character and pair orders -/

theorem chars_le_total : ∀ x y : List Char, chars_le x y = true ∨ chars_le y x = true := by
  intro x
  induction x with
  | nil => intro y; left; simp [chars_le]
  | cons a as ih =>
    intro y
    cases y with
    | nil => right; simp [chars_le]
    | cons b bs =>
      rcases Nat.lt_trichotomy a.toNat b.toNat with h | h | h
      · left; simp [chars_le, h]
      · rcases ih bs with h2 | h2
        · left; simp [chars_le, h, Nat.lt_irrefl, h2]
        · right; simp [chars_le, ← h, Nat.lt_irrefl, h2]
      · right; simp [chars_le, h]

theorem chars_le_trans :
    ∀ x y z : List Char, chars_le x y = true → chars_le y z = true →
      chars_le x z = true := by
  intro x
  induction x with
  | nil => intro y z _ _; simp [chars_le]
  | cons a as ih =>
    intro y z hxy hyz
    cases y with
    | nil => simp [chars_le] at hxy
    | cons b bs =>
      cases z with
      | nil => simp [chars_le] at hyz
      | cons c cs =>
        rcases Nat.lt_trichotomy a.toNat b.toNat with hab | hab | hab
        · rcases Nat.lt_trichotomy b.toNat c.toNat with hbc | hbc | hbc
          · simp [chars_le, Nat.lt_trans hab hbc]
          · simp [chars_le, hbc ▸ hab]
          · simp [chars_le, Nat.lt_asymm hbc] at hyz
            exact absurd hyz.1 (Nat.ne_of_gt hbc)
        · rcases Nat.lt_trichotomy b.toNat c.toNat with hbc | hbc | hbc
          · simp [chars_le, hab ▸ hbc]
          · have hxy2 : chars_le as bs = true := by
              simpa [chars_le, Nat.lt_irrefl, hab] using hxy
            have hyz2 : chars_le bs cs = true := by
              simpa [chars_le, Nat.lt_irrefl, hbc] using hyz
            have hac : a.toNat = c.toNat := hab.trans hbc
            simp [chars_le, hac, Nat.lt_irrefl, ih bs cs hxy2 hyz2]
          · simp [chars_le, Nat.lt_asymm hbc] at hyz
            exact absurd hyz.1 (Nat.ne_of_gt hbc)
        · simp [chars_le, Nat.lt_asymm hab] at hxy
          exact absurd hxy.1 (Nat.ne_of_gt hab)

instance : IsTotal (ℚ × Nat) pair_le := by
  constructor
  intro a b
  unfold pair_le
  rcases lt_trichotomy a.1 b.1 with h | h | h
  · left; simp [h]
  · rcases chars_le_total (Nat.repr a.2).data (Nat.repr b.2).data with h2 | h2
    · left; simp [h, lt_irrefl, name_le, h2]
    · right; simp [← h, lt_irrefl, name_le, h2]
  · right; simp [h]

instance : IsTrans (ℚ × Nat) pair_le := by
  constructor
  intro a b c hab hbc
  unfold pair_le at *
  rcases lt_trichotomy a.1 b.1 with h1 | h1 | h1
  · rcases lt_trichotomy b.1 c.1 with h2 | h2 | h2
    · simp [lt_trans h1 h2]
    · simp [h2 ▸ h1]
    · simp [not_lt_of_lt h2] at hbc
      exact absurd hbc.1 (ne_of_gt h2)
  · rcases lt_trichotomy b.1 c.1 with h2 | h2 | h2
    · simp [h1 ▸ h2]
    · have hab2 : name_le a.2 b.2 = true := by simpa [h1, lt_irrefl] using hab
      have hbc2 : name_le b.2 c.2 = true := by simpa [h2, lt_irrefl] using hbc
      have hac : a.1 = c.1 := h1.trans h2
      have : name_le a.2 c.2 = true :=
        chars_le_trans _ _ _ hab2 hbc2
      simp [hac, lt_irrefl, this]
    · simp [not_lt_of_lt h2] at hbc
      exact absurd hbc.1 (ne_of_gt h2)
  · simp [not_lt_of_lt h1] at hab
    exact absurd hab.1 (ne_of_gt h1)

/-! ### Page structure lemmas -/

theorem pgroup_kind_unique {k : PGroup → Bool} {page : List PGroup}
    (h : ((page.filter k).map PGroup.idx).Nodup) {a b : PGroup}
    (ha : a ∈ page) (hb : b ∈ page) (hka : k a = true) (hkb : k b = true)
    (hidx : a.idx = b.idx) : a = b :=
  List.inj_on_of_nodup_map h (List.mem_filter.mpr ⟨ha, hka⟩)
    (List.mem_filter.mpr ⟨hb, hkb⟩) hidx

theorem find_kind_eq_some {k : PGroup → Bool} {page : List PGroup} {i : Nat} {g : PGroup}
    (h : ((page.filter k).map PGroup.idx).Nodup) :
    (page.find? fun g => k g && g.idx == i) = some g ↔
      g ∈ page ∧ k g = true ∧ g.idx = i := by
  constructor
  · intro hf
    have hm := List.mem_of_find?_eq_some hf
    have hp := List.find?_some hf
    simp only [Bool.and_eq_true, beq_iff_eq] at hp
    exact ⟨hm, hp.1, hp.2⟩
  · rintro ⟨hm, hk, hi⟩
    apply find?_eq_some_of_unique hm (by simp [hk, hi])
    intro b hb hpb
    simp only [Bool.and_eq_true, beq_iff_eq] at hpb
    exact pgroup_kind_unique h hb hm hpb.1 hk (hpb.2.trans hi.symm)

theorem mem_kind_digits {k : PGroup → Bool} {page : List PGroup} {i : Nat} :
    i ∈ (page.filter k).map PGroup.idx ↔ ∃ g ∈ page, k g = true ∧ g.idx = i := by
  simp only [List.mem_map, List.mem_filter]
  constructor
  · rintro ⟨g, ⟨hg, hk⟩, hi⟩
    exact ⟨g, hg, hk, hi⟩
  · rintro ⟨g, hg, hk, hi⟩
    exact ⟨g, ⟨hg, hk⟩, hi⟩

theorem mem_key_triple {page : List PGroup} {i : Nat} {g : PGroup} :
    g ∈ key_triple page i ↔
      find_position page i = some g ∨ find_color page i = some g ∨
        find_delete page i = some g := by
  simp [key_triple, List.mem_append]

theorem mem_of_mem_key_triple {page : List PGroup} {i : Nat} {g : PGroup}
    (h : g ∈ key_triple page i) : g ∈ page := by
  rcases mem_key_triple.mp h with h | h | h <;>
    exact List.mem_of_find?_eq_some h

theorem mem_arrange {page : List PGroup} {g : PGroup} {ps : List (ℚ × Nat)} :
    g ∈ arrange page ps ↔ ∃ p ∈ ps, g ∈ key_triple page p.2 := by
  induction ps with
  | nil => simp [arrange]
  | cons p ps ih => simp [arrange, List.mem_append, ih]

theorem mem_position_info {s : MetaRamp} {p : ℚ × Nat} :
    p ∈ position_info s ↔
      ∃ g ∈ s.page, g.isPosition = true ∧ g.pval = p.1 ∧ g.idx = p.2 := by
  simp only [position_info, get_position_params, List.mem_map, List.mem_filter]
  constructor
  · rintro ⟨g, ⟨hg, hk⟩, hp⟩
    exact ⟨g, hg, hk, congrArg Prod.fst hp, congrArg Prod.snd hp⟩
  · rintro ⟨g, hg, hk, h1, h2⟩
    exact ⟨g, ⟨hg, hk⟩, by rw [h1, h2]⟩

theorem mem_sorted_position_info {s : MetaRamp} {p : ℚ × Nat} :
    p ∈ sorted_position_info s ↔ p ∈ position_info s :=
  (List.perm_insertionSort pair_le (position_info s)).mem_iff

/-- Every group placed by `keys_page.sort` was already on the page. -/
theorem switch_page_subset {s : MetaRamp} {g : PGroup}
    (h : g ∈ (SwitchKeyPositions s).page) : g ∈ s.page := by
  unfold SwitchKeyPositions at h
  by_cases hflag : sort_keys_enabled s
  · rw [if_pos hflag] at h
    obtain ⟨p, _, hkt⟩ := mem_arrange.mp h
    exact mem_of_mem_key_triple hkt
  · rwa [if_neg hflag] at h

/-- On a live page, `SwitchKeyPositions` keeps exactly the same groups. -/
theorem switch_page_mem {s : MetaRamp} (hWF : WF s) {g : PGroup} :
    g ∈ (SwitchKeyPositions s).page ↔ g ∈ s.page := by
  constructor
  · exact switch_page_subset
  · intro h
    obtain ⟨hpn, hcn, hdn, hcp, hdp⟩ := hWF
    unfold SwitchKeyPositions
    by_cases hflag : sort_keys_enabled s
    case neg => rwa [if_neg hflag]
    rw [if_pos hflag]
    have mk_pair : ∀ a ∈ s.page, a.isPosition = true →
        ∃ p ∈ sorted_position_info s, p.2 = a.idx := by
      intro a ha hk
      exact ⟨(a.pval, a.idx),
        mem_sorted_position_info.mpr (mem_position_info.mpr ⟨a, ha, hk, rfl, rfl⟩), rfl⟩
    cases hg : g with
    | position i v =>
      obtain ⟨p, hp, hpi⟩ := mk_pair g h (by rw [hg]; rfl)
      refine mem_arrange.mpr ⟨p, hp, mem_key_triple.mpr (Or.inl ?_)⟩
      rw [hpi, ← hg]
      exact (find_kind_eq_some hpn).mpr ⟨h, by rw [hg]; rfl, rfl⟩
    | color i r gr b al =>
      have hic : g.idx ∈ color_digits s.page :=
        mem_kind_digits.mpr ⟨g, h, by rw [hg]; rfl, rfl⟩
      obtain ⟨a, ha, hak, hai⟩ := mem_kind_digits.mp (hcp _ hic)
      obtain ⟨p, hp, hpi⟩ := mk_pair a ha hak
      refine mem_arrange.mpr ⟨p, hp, mem_key_triple.mpr (Or.inr (Or.inl ?_))⟩
      rw [hpi, hai, ← hg]
      exact (find_kind_eq_some hcn).mpr ⟨h, by rw [hg]; rfl, rfl⟩
    | delete i ro =>
      have hid : g.idx ∈ delete_digits s.page :=
        mem_kind_digits.mpr ⟨g, h, by rw [hg]; rfl, rfl⟩
      obtain ⟨a, ha, hak, hai⟩ := mem_kind_digits.mp (hdp _ hid)
      obtain ⟨p, hp, hpi⟩ := mk_pair a ha hak
      refine mem_arrange.mpr ⟨p, hp, mem_key_triple.mpr (Or.inr (Or.inr ?_))⟩
      rw [hpi, hai, ← hg]
      exact (find_kind_eq_some hdn).mpr ⟨h, by rw [hg]; rfl, rfl⟩

theorem switch_find_kind {s : MetaRamp} (hWF : WF s) {k : PGroup → Bool}
    (hk : ((s.page.filter k).map PGroup.idx).Nodup) (i : Nat) :
    ((SwitchKeyPositions s).page.find? fun g => k g && g.idx == i) =
      (s.page.find? fun g => k g && g.idx == i) := by
  cases hf : s.page.find? fun g => k g && g.idx == i with
  | none =>
    have hnone := List.find?_eq_none.mp hf
    exact List.find?_eq_none.mpr fun g hg => hnone g (switch_page_subset hg)
  | some g =>
    obtain ⟨hm, hkg, hig⟩ := (find_kind_eq_some hk).mp hf
    apply find?_eq_some_of_unique ((switch_page_mem hWF).mpr hm) (by simp [hkg, hig])
    intro b hb hpb
    simp only [Bool.and_eq_true, beq_iff_eq] at hpb
    exact pgroup_kind_unique hk (switch_page_subset hb) hm hpb.1 hkg (hpb.2.trans hig.symm)

theorem posOf_switch {s : MetaRamp} (hWF : WF s) (i : Nat) :
    posOf (SwitchKeyPositions s) i = posOf s i := by
  unfold posOf find_position
  rw [switch_find_kind hWF hWF.1 i]

theorem colorOf_switch {s : MetaRamp} (hWF : WF s) (i : Nat) :
    colorOf (SwitchKeyPositions s) i = colorOf s i := by
  unfold colorOf find_color
  rw [switch_find_kind hWF hWF.2.1 i]

theorem deleteROOf_switch {s : MetaRamp} (hWF : WF s) (i : Nat) :
    deleteROOf (SwitchKeyPositions s) i = deleteROOf s i := by
  unfold deleteROOf find_delete
  rw [switch_find_kind hWF hWF.2.2.1 i]

theorem filter_position_color_toList {page : List PGroup} {i : Nat} :
    ((find_color page i).toList.filter fun g => g.isPosition) = [] := by
  cases hc : find_color page i with
  | none => rfl
  | some c =>
    have hp := List.find?_some hc
    simp only [Bool.and_eq_true] at hp
    have : c.isPosition = false := by
      cases c <;> simp_all [PGroup.isColor, PGroup.isPosition]
    simp [this]

theorem filter_position_delete_toList {page : List PGroup} {i : Nat} :
    ((find_delete page i).toList.filter fun g => g.isPosition) = [] := by
  cases hc : find_delete page i with
  | none => rfl
  | some c =>
    have hp := List.find?_some hc
    simp only [Bool.and_eq_true] at hp
    have : c.isPosition = false := by
      cases c <;> simp_all [PGroup.isDelete, PGroup.isPosition]
    simp [this]

theorem filter_position_key_triple {page : List PGroup} {i : Nat} {a : PGroup}
    (hfp : find_position page i = some a) :
    (key_triple page i).filter (fun g => g.isPosition) = [a] := by
  have ha : a.isPosition = true := by
    have hp := List.find?_some hfp
    simp only [Bool.and_eq_true] at hp
    exact hp.1
  simp [key_triple, List.filter_append, hfp, ha,
    filter_position_color_toList, filter_position_delete_toList]

theorem position_info_arrange {page : List PGroup}
    (hpn : ((page.filter fun g => g.isPosition).map PGroup.idx).Nodup)
    (ps : List (ℚ × Nat))
    (hps : ∀ p ∈ ps, ∃ a ∈ page, a.isPosition = true ∧ a.pval = p.1 ∧ a.idx = p.2) :
    ((arrange page ps).filter fun g => g.isPosition).map (fun g => (g.pval, g.idx)) = ps := by
  induction ps with
  | nil => simp [arrange]
  | cons p ps ih =>
    obtain ⟨a, ham, hak, hav, hai⟩ := hps p (List.mem_cons_self p ps)
    have hfp : find_position page p.2 = some a :=
      (find_kind_eq_some hpn).mpr ⟨ham, hak, hai⟩
    simp only [arrange, List.filter_append, List.map_append,
      filter_position_key_triple hfp]
    rw [ih fun q hq => hps q (List.mem_cons_of_mem p hq)]
    simp [hav, hai]

/-- When sorting is enabled, the reordered page lists the position
parameters (reserved slots included) exactly in the sorted tuple order. -/
theorem position_info_switch {s : MetaRamp} (hWF : WF s) (hflag : s.Sortkeys = true) :
    position_info (SwitchKeyPositions s) = sorted_position_info s := by
  have hpage : (SwitchKeyPositions s).page = arrange s.page (sorted_position_info s) := by
    unfold SwitchKeyPositions
    rw [if_pos (by exact hflag)]
  show ((SwitchKeyPositions s).page.filter fun g => g.isPosition).map (fun g => (g.pval, g.idx)) =
    sorted_position_info s
  rw [hpage]
  exact position_info_arrange hWF.1 (sorted_position_info s) fun p hp =>
    mem_position_info.mp (mem_sorted_position_info.mp hp)

/-! ### Digit bookkeeping of the four operations -/

theorem set_last_append {α : Type} {xs : List α} {n : Nat} (h : n = xs.length)
    (a b : α) : (xs ++ [a]).set n b = xs ++ [b] := by
  subst h
  induction xs with
  | nil => rfl
  | cons x xs ih => simp [List.set, ih]

theorem ideal_numbers_eq (l : Nat) : ideal_numbers l = List.range l ++ [99] := by
  unfold ideal_numbers
  rw [List.range_succ]
  exact set_last_append (List.length_range l).symm l 99

theorem digits_create (idx : Nat) (v : ℚ) (b : Bool) (s : MetaRamp) :
    get_position_param_digits (create_key_params idx v b s) =
      get_position_param_digits s ++ [idx] := by
  simp [get_position_param_digits, get_position_params, create_key_params,
    List.filter_append, PGroup.isPosition, PGroup.idx]

theorem pos_digits_arrange (page : List PGroup) (ps : List (ℚ × Nat))
    (hps : ∀ p ∈ ps, p.2 ∈ pos_digits page) :
    pos_digits (arrange page ps) = ps.map Prod.snd := by
  induction ps with
  | nil => simp [arrange, pos_digits]
  | cons p ps ih =>
    obtain ⟨a, ham, hak, hai⟩ := mem_kind_digits.mp (hps p (List.mem_cons_self p ps))
    have hsome : (find_position page p.2).isSome := by
      unfold find_position
      exact List.find?_isSome.mpr ⟨a, ham, by simp [hak, hai]⟩
    obtain ⟨g, hfp⟩ := Option.isSome_iff_exists.mp hsome
    have hgp := List.find?_some hfp
    simp only [Bool.and_eq_true, beq_iff_eq] at hgp
    show pos_digits (key_triple page p.2 ++ arrange page ps) = p.2 :: ps.map Prod.snd
    unfold pos_digits
    rw [List.filter_append, List.map_append, filter_position_key_triple hfp]
    rw [show ((arrange page ps).filter fun g => g.isPosition).map PGroup.idx =
      ps.map Prod.snd from ih fun q hq => hps q (List.mem_cons_of_mem p hq)]
    simp [hgp.2]

theorem position_info_map_snd (s : MetaRamp) :
    (position_info s).map Prod.snd = get_position_param_digits s := by
  unfold position_info get_position_param_digits get_position_params
  rw [List.map_map]
  exact List.map_congr_left fun a _ => rfl

theorem digits_switch_perm (s : MetaRamp) :
    (get_position_param_digits (SwitchKeyPositions s)).Perm
      (get_position_param_digits s) := by
  unfold SwitchKeyPositions
  by_cases hflag : sort_keys_enabled s
  · rw [if_pos hflag]
    show (pos_digits (arrange s.page (sorted_position_info s))).Perm (pos_digits s.page)
    rw [pos_digits_arrange s.page _ ?memb]
    case memb =>
      intro p hp
      obtain ⟨g, hg, hk, _, hi⟩ := mem_position_info.mp (mem_sorted_position_info.mp hp)
      exact mem_kind_digits.mpr ⟨g, hg, hk, hi⟩
    have h2 := (List.perm_insertionSort pair_le (position_info s)).map Prod.snd
    rw [position_info_map_snd] at h2
    exact h2
  · rw [if_neg hflag]

theorem digits_add (s : MetaRamp) :
    (get_position_param_digits (OnAddKey s).2).Perm
      (get_position_param_digits s ++ [next_idx (get_position_param_digits s)]) := by
  have h := digits_switch_perm
    (create_key_params (next_idx (get_position_param_digits s))
      s.Newkeyposition s.Enabledelete s)
  rw [digits_create] at h
  exact h

theorem PGroup.color_not_position {g : PGroup} (h : g.isColor = true) :
    g.isPosition = false := by
  cases g <;> simp_all [PGroup.isColor, PGroup.isPosition]

theorem PGroup.delete_not_position {g : PGroup} (h : g.isDelete = true) :
    g.isPosition = false := by
  cases g <;> simp_all [PGroup.isDelete, PGroup.isPosition]

theorem PGroup.position_not_color {g : PGroup} (h : g.isPosition = true) :
    g.isColor = false := by
  cases g <;> simp_all [PGroup.isColor, PGroup.isPosition]

theorem PGroup.position_not_delete {g : PGroup} (h : g.isPosition = true) :
    g.isDelete = false := by
  cases g <;> simp_all [PGroup.isDelete, PGroup.isPosition]

theorem destroy_sublist (i : Nat) (page : List PGroup) :
    (destroy_key_params i page).Sublist page :=
  ((List.filter_sublist _).trans (List.filter_sublist _)).trans (List.filter_sublist _)

theorem pos_digits_sublist {l₁ l₂ : List PGroup} (h : l₁.Sublist l₂) :
    (pos_digits l₁).Sublist (pos_digits l₂) :=
  (h.filter _).map _

theorem mem_destroy_of_ne {i j : Nat} {page : List PGroup} (hne : j ≠ i)
    (h : j ∈ pos_digits page) : j ∈ pos_digits (destroy_key_params i page) := by
  obtain ⟨g, hg, hk, hi⟩ := mem_kind_digits.mp h
  have hgi : (g.idx == i) = false := by simp [hi]; omega
  refine mem_kind_digits.mpr ⟨g, ?_, hk, hi⟩
  unfold destroy_key_params
  simp only [List.mem_filter]
  exact ⟨⟨⟨hg, by simp [PGroup.position_not_delete hk]⟩,
    by simp [PGroup.position_not_color hk]⟩, by simp [hgi]⟩

theorem digits_toggle (b : Bool) (s : MetaRamp) :
    get_position_param_digits (OnEnableDelete b s) = get_position_param_digits s := by
  show pos_digits (s.page.map (toggle_delete b)) = pos_digits s.page
  unfold pos_digits
  rw [List.filter_map]
  have hpred : ((fun g => g.isPosition) ∘ toggle_delete b) = fun g => g.isPosition := by
    funext g
    show (toggle_delete b g).isPosition = g.isPosition
    cases g with
    | delete i ro => by_cases h : i = 0 ∨ i = 99 <;> simp [toggle_delete, h, PGroup.isPosition]
    | position i v => rfl
    | color i r gr bl al => rfl
  rw [hpred, List.map_map]
  refine List.map_congr_left fun a ha => ?_
  have hak := (List.mem_filter.mp ha).2
  show (toggle_delete b a).idx = a.idx
  cases a with
  | delete i ro => simp [PGroup.isPosition] at hak
  | position i v => rfl
  | color i r gr bl al => rfl

/-! ### The `next_idx` computation -/

theorem mem_ideal_le {l : Nat} (hl : l ≤ 99) {x : Nat}
    (hx : x ∈ ideal_numbers l) : x ≤ 99 := by
  rw [ideal_numbers_eq] at hx
  rcases List.mem_append.mp hx with h | h
  · have := List.mem_range.mp h; omega
  · simp at h; omega

theorem missing_ne_nil {digits : List Nat} (h : digits.length ≤ 99) :
    missing_numbers digits ≠ [] := by
  intro hnil
  have hsub : ideal_numbers digits.length ⊆ digits := by
    intro x hx
    by_contra hxd
    have hxm : x ∈ missing_numbers digits :=
      List.mem_filter.mpr ⟨hx, by simp [hxd]⟩
    rw [hnil] at hxm
    cases hxm
  have hnd : (ideal_numbers digits.length).Nodup := by
    rw [ideal_numbers_eq, List.nodup_append]
    refine ⟨List.nodup_range _, List.nodup_singleton 99, ?_⟩
    intro x hx hx99
    simp at hx99
    have := List.mem_range.mp hx
    omega
  have hlen : (ideal_numbers digits.length).length ≤ digits.length :=
    (List.subperm_of_subset hnd hsub).length_le
  rw [ideal_numbers_eq] at hlen
  simp [List.length_append, List.length_range] at hlen

theorem next_idx_spec {digits : List Nat} (h : digits.length ≤ 99) :
    next_idx digits ∈ ideal_numbers digits.length ∧ next_idx digits ∉ digits := by
  unfold next_idx
  cases hm : missing_numbers digits with
  | nil => exact absurd hm (missing_ne_nil h)
  | cons m rest =>
    have hmm : m ∈ missing_numbers digits := by
      rw [hm]; exact List.mem_cons_self m rest
    have := List.mem_filter.mp hmm
    refine ⟨this.1, ?_⟩
    simpa using this.2

/-! ### Preservation of the C4 invariant -/

theorem good_digits_perm {d e : List Nat} (hperm : d.Perm e)
    (h : good_digits e) : good_digits d := by
  obtain ⟨h0, h99, hnd, hb⟩ := h
  exact ⟨hperm.mem_iff.mpr h0, hperm.mem_iff.mpr h99, hperm.nodup_iff.mpr hnd,
    fun i hi => hb i (hperm.subset hi)⟩

theorem digits_length_eq (s : MetaRamp) :
    (get_position_param_digits s).length = get_num_params s :=
  List.length_map _ _

theorem KeyInv_add {s : MetaRamp} (h : KeyInv s) (hcap : get_num_params s ≤ 99) :
    KeyInv (OnAddKey s).2 := by
  have hlen : (get_position_param_digits s).length ≤ 99 := by
    rw [digits_length_eq]; exact hcap
  obtain ⟨hmem, hnotin⟩ := next_idx_spec hlen
  apply good_digits_perm (digits_add s)
  obtain ⟨h0, h99, hnd, hb⟩ := h
  refine ⟨List.mem_append.mpr (Or.inl h0), List.mem_append.mpr (Or.inl h99), ?_, ?_⟩
  · rw [List.nodup_append]
    refine ⟨hnd, List.nodup_singleton _, ?_⟩
    intro x hx hx2
    simp at hx2
    subst hx2
    exact hnotin hx
  · intro i hi
    rcases List.mem_append.mp hi with hi | hi
    · exact hb i hi
    · simp at hi
      subst hi
      exact mem_ideal_le hlen hmem

theorem KeyInv_delete {s : MetaRamp} (h : KeyInv s) (i : Nat) :
    KeyInv (OnDeleteKey i s).2 := by
  unfold OnDeleteKey
  by_cases h0 : i = 0 ∨ i = 99
  · rw [if_pos h0]; exact h
  · rw [if_neg h0]
    by_cases hex : (s.page.any fun g => g.isDelete && g.idx == i) = true
    · rw [if_pos hex]
      obtain ⟨hm0, hm99, hnd, hb⟩ := h
      have hsub := pos_digits_sublist (destroy_sublist i s.page)
      show good_digits (pos_digits (destroy_key_params i s.page))
      refine ⟨?_, ?_, List.Nodup.sublist hsub hnd, ?_⟩
      · exact mem_destroy_of_ne (fun he => h0 (Or.inl he.symm)) hm0
      · exact mem_destroy_of_ne (fun he => h0 (Or.inr he.symm)) hm99
      · intro j hj
        exact hb j (hsub.subset hj)
    · rw [if_neg hex]; exact h

theorem KeyInv_enable {s : MetaRamp} (h : KeyInv s) (b : Bool) :
    KeyInv (OnEnableDelete b s) := by
  unfold KeyInv
  rw [digits_toggle]
  exact h

theorem KeyInv_sort {s : MetaRamp} (h : KeyInv s) :
    KeyInv (SwitchKeyPositions s) :=
  good_digits_perm (digits_switch_perm s) h

theorem KeyInv_stepcap {s t : MetaRamp} (h : KeyInv s) (hst : StepCap s t) :
    KeyInv t := by
  cases hst with
  | add q b s hcap => exact KeyInv_add h hcap
  | del i s => exact KeyInv_delete h i
  | enable b s => exact KeyInv_enable h b
  | sortPage s => exact KeyInv_sort h
  | setSort b s => exact h

theorem KeyInv_init : KeyInv init :=
  ⟨by decide, by decide, by decide, by decide⟩

/-! ### Equivalence of the amended claim C2 policy with the code -/

theorem claim_ideal_succ (l : Nat) : claim_ideal (l + 1) = ideal_numbers l := by
  unfold claim_ideal ideal_numbers
  simp

theorem claim_missing_eq (digits : List Nat) :
    claim_missing (digits.length + 1) digits = missing_numbers digits := by
  unfold claim_missing missing_numbers
  rw [claim_ideal_succ]

theorem ideal_sorted {l : Nat} (hl : l ≤ 99) :
    List.Sorted (· ≤ ·) (ideal_numbers l) := by
  rw [ideal_numbers_eq]
  refine List.pairwise_append.mpr ⟨?_, List.pairwise_singleton _ _, ?_⟩
  · exact (List.pairwise_lt_range l).imp le_of_lt
  · intro x hx y hy
    simp at hy
    subst hy
    have := List.mem_range.mp hx
    omega

theorem claim_policy_amended_eq {digits : List Nat} (h : digits.length ≤ 99) :
    claim_policy_amended digits = next_idx digits := by
  unfold claim_policy_amended next_idx
  rw [claim_missing_eq]
  cases hm : missing_numbers digits with
  | nil =>
    rw [claim_ideal_succ]
    have hfil : (ideal_numbers digits.length).filter (fun i => !(i == 99)) =
        (ideal_numbers digits.length).dropLast := by
      rw [ideal_numbers_eq, List.dropLast_concat, List.filter_append]
      have h1 : (List.range digits.length).filter (fun i => !(i == 99)) =
          List.range digits.length := by
        apply List.filter_eq_self.mpr
        intro a ha
        have := List.mem_range.mp ha
        simp
        omega
      simp [h1]
    rw [hfil]
    rfl
  | cons m rest =>
    have hsorted : List.Sorted (· ≤ ·) (m :: rest) := by
      rw [← hm]
      exact (ideal_sorted h).filter _
    rw [min?_eq_head_of_sorted hsorted]

theorem py_max_range (n : Nat) : py_max (List.range (n + 1)) = n := by
  induction n with
  | zero => rfl
  | succ k ih =>
    unfold py_max at *
    rw [List.range_succ, List.foldl_append, ih]
    simp

/-! ### Lemmas about `OnEnableDelete` -/

theorem find?_map_of_pred {f : PGroup → PGroup} {p : PGroup → Bool}
    (hp : ∀ g, p (f g) = p g) (l : List PGroup) :
    (l.map f).find? p = (l.find? p).map f := by
  induction l with
  | nil => rfl
  | cons a l ih =>
    by_cases ha : p a = true
    · rw [List.map_cons, List.find?_cons_of_pos _ (by rw [hp]; exact ha),
        List.find?_cons_of_pos _ ha]
      rfl
    · rw [List.map_cons, List.find?_cons_of_neg _ (by rw [hp]; exact ha),
        List.find?_cons_of_neg _ ha]
      exact ih

theorem toggle_pred_delete (b : Bool) (i : Nat) (g : PGroup) :
    ((toggle_delete b g).isDelete && (toggle_delete b g).idx == i) =
      (g.isDelete && g.idx == i) := by
  cases g with
  | delete j ro =>
    by_cases h : j = 0 ∨ j = 99 <;> simp [toggle_delete, h, PGroup.isDelete, PGroup.idx]
  | position j v => rfl
  | color j r gr bl al => rfl

theorem toggle_pred_position (b : Bool) (i : Nat) (g : PGroup) :
    ((toggle_delete b g).isPosition && (toggle_delete b g).idx == i) =
      (g.isPosition && g.idx == i) := by
  cases g with
  | delete j ro =>
    by_cases h : j = 0 ∨ j = 99 <;> simp [toggle_delete, h, PGroup.isPosition]
  | position j v => rfl
  | color j r gr bl al => rfl

theorem toggle_pred_color (b : Bool) (i : Nat) (g : PGroup) :
    ((toggle_delete b g).isColor && (toggle_delete b g).idx == i) =
      (g.isColor && g.idx == i) := by
  cases g with
  | delete j ro =>
    by_cases h : j = 0 ∨ j = 99 <;> simp [toggle_delete, h, PGroup.isColor]
  | position j v => rfl
  | color j r gr bl al => rfl

theorem toggle_idem (b : Bool) (g : PGroup) :
    toggle_delete b (toggle_delete b g) = toggle_delete b g := by
  cases g with
  | delete j ro =>
    by_cases h : j = 0 ∨ j = 99 <;> simp [toggle_delete, h]
  | position j v => rfl
  | color j r gr bl al => rfl

theorem deleteROOf_toggle (b : Bool) (s : MetaRamp) (i : Nat) :
    deleteROOf (OnEnableDelete b s) i =
      if i = 0 ∨ i = 99 then deleteROOf s i
      else (deleteROOf s i).map fun _ => !b := by
  unfold deleteROOf find_delete OnEnableDelete
  rw [find?_map_of_pred (toggle_pred_delete b i)]
  cases hf : s.page.find? fun g => g.isDelete && g.idx == i with
  | none => by_cases h : i = 0 ∨ i = 99 <;> simp [h]
  | some g =>
    have hp := List.find?_some hf
    simp only [Bool.and_eq_true, beq_iff_eq] at hp
    cases g with
    | delete j ro =>
      have hj : j = i := hp.2
      subst hj
      by_cases h : j = 0 ∨ j = 99 <;> simp [toggle_delete, h]
    | position j v => simp [PGroup.isDelete] at hp
    | color j r gr bl al => simp [PGroup.isDelete] at hp

theorem posOf_toggle (b : Bool) (s : MetaRamp) (i : Nat) :
    posOf (OnEnableDelete b s) i = posOf s i := by
  unfold posOf find_position OnEnableDelete
  rw [find?_map_of_pred (toggle_pred_position b i)]
  cases hf : s.page.find? fun g => g.isPosition && g.idx == i with
  | none => rfl
  | some g =>
    have hp := List.find?_some hf
    simp only [Bool.and_eq_true, beq_iff_eq] at hp
    cases g with
    | position j v => rfl
    | delete j ro => simp [PGroup.isPosition] at hp
    | color j r gr bl al => simp [PGroup.isPosition] at hp

theorem colorOf_toggle (b : Bool) (s : MetaRamp) (i : Nat) :
    colorOf (OnEnableDelete b s) i = colorOf s i := by
  unfold colorOf find_color OnEnableDelete
  rw [find?_map_of_pred (toggle_pred_color b i)]
  cases hf : s.page.find? fun g => g.isColor && g.idx == i with
  | none => rfl
  | some g =>
    have hp := List.find?_some hf
    simp only [Bool.and_eq_true, beq_iff_eq] at hp
    cases g with
    | color j r gr bl al => rfl
    | delete j ro => simp [PGroup.isColor] at hp
    | position j v => simp [PGroup.isColor] at hp

theorem enable_idem (b : Bool) (s : MetaRamp) :
    OnEnableDelete b (OnEnableDelete b s) = OnEnableDelete b s := by
  have hmaps : (s.page.map (toggle_delete b)).map (toggle_delete b) =
      s.page.map (toggle_delete b) := by
    rw [List.map_map]
    exact List.map_congr_left fun g _ => toggle_idem b g
  simp [OnEnableDelete, hmaps]

/-! ### Reachability helpers -/

theorem reachable_add_many (n : Nat) {s : MetaRamp} (h : Reachable s) :
    Reachable (add_many n s) := by
  induction n generalizing s with
  | zero => exact h
  | succ k ih =>
    exact ih (Reachable.step h (Step.add s.Newkeyposition s.Enabledelete s))

theorem WF_ramp_state : WF ramp_state :=
  ⟨by decide, by decide, by decide, by decide, by decide⟩

/-! ### Claim C1 -/

/-- C1 counterexample: with sorting enabled and slots 0, 1, 2, 99 at
positions 0, 7, 3, 10, the claim requires `Sort` to reassign index 1 to the
smallest non-reserved position (3) and index 2 to 7.  The code leaves the
index-to-position mapping untouched: slot 1 keeps 7 and slot 2 keeps 3, so
`Sort` does not reassign indices by ascending position. -/
theorem C1_counterexample :
    ramp_state.Sortkeys = true ∧
      posOf ramp_state 1 = some 7 ∧ posOf ramp_state 2 = some 3 ∧
      posOf (SwitchKeyPositions ramp_state) 1 = some 7 ∧
      posOf (SwitchKeyPositions ramp_state) 2 = some 3 :=
  ⟨rfl, by decide, by decide, by decide, by decide⟩

/-- C1 (amended): for every live state with the sort-on-change flag
enabled, `Sort` reassigns no indices — every slot keeps its position, color
and delete data at its own index — and instead reorders the page display so
that all slots (the reserved 0 and 99 included) are listed by ascending
(position value, parameter name), each slot's three parameter groups
travelling together. -/
theorem C1_theorem (s : MetaRamp) (hWF : WF s) (hflag : s.Sortkeys = true) :
    (∀ i, posOf (SwitchKeyPositions s) i = posOf s i) ∧
      (∀ i, colorOf (SwitchKeyPositions s) i = colorOf s i) ∧
      (∀ i, deleteROOf (SwitchKeyPositions s) i = deleteROOf s i) ∧
      position_info (SwitchKeyPositions s) = sorted_position_info s ∧
      List.Sorted pair_le (position_info (SwitchKeyPositions s)) := by
  refine ⟨posOf_switch hWF, colorOf_switch hWF, deleteROOf_switch hWF,
    position_info_switch hWF hflag, ?_⟩
  rw [position_info_switch hWF hflag]
  exact List.sorted_insertionSort pair_le (position_info s)

/-- Witness for C1: the amended theorem applied to the concrete sorted-demo
state. -/
theorem C1_witness :
    posOf (SwitchKeyPositions ramp_state) 1 = posOf ramp_state 1 ∧
      position_info (SwitchKeyPositions ramp_state) = sorted_position_info ramp_state :=
  ⟨(C1_theorem ramp_state WF_ramp_state rfl).1 1,
    (C1_theorem ramp_state WF_ramp_state rfl).2.2.2.1⟩

/-! ### Claim C2 -/

/-- C2 counterexample: at the state with slots {0, 1, 99} the claim's
policy (with `n` = non-reserved count + 1 = 2) yields ideal domain
`[0, 99]`, no missing value, and the fallback `max([0]) + 1 = 1` — an index
that is already occupied — while the code assigns 2. -/
theorem C2_counterexample :
    (OnAddKey three_state).1 = 2 ∧
      claim_policy (get_position_param_digits three_state) = 1 :=
  ⟨by decide, by decide⟩

/-- C2 (amended): the claim's policy with `n` counted as the number of all
existing slots + 1 (reserved 0 and 99 included) matches the index `OnAddKey`
assigns, for every state within the 100-slot index space. -/
theorem C2_theorem (s : MetaRamp) (h : get_num_params s ≤ 99) :
    (OnAddKey s).1 = claim_policy_amended (get_position_param_digits s) := by
  have hlen : (get_position_param_digits s).length ≤ 99 := by
    rw [digits_length_eq]; exact h
  rw [claim_policy_amended_eq hlen]
  rfl

/-- Witness for C2: the amended policy agreement at the {0, 1, 99} state. -/
theorem C2_witness :
    (OnAddKey three_state).1 =
      claim_policy_amended (get_position_param_digits three_state) :=
  C2_theorem three_state (by decide)

/-! ### Claim C3 -/

/-- C3: from the initial slots {0, 99}, three `AddKey` calls assign
1, 2, 3 in order; from slots {0, 1, 3, 99} the next `AddKey` fills the
gap and assigns 2. -/
theorem C3_theorem :
    (OnAddKey init).1 = 1 ∧
      (OnAddKey (OnAddKey init).2).1 = 2 ∧
      (OnAddKey (OnAddKey (OnAddKey init).2).2).1 = 3 ∧
      (OnAddKey gap_state).1 = 2 :=
  ⟨by decide, by decide, by decide, by decide⟩

/-! ### Claim C4 -/

set_option maxRecDepth 40000 in
/-- C4 counterexample: after 99 `AddKey` steps from the initial state — a
sequence of the claim's own operations — the reachable state contains slot
index 100, outside the claimed range `[0, 99]`: the 99th call finds every
index of `{0, …, 99}` occupied and assigns `max + 1 = 100` instead of
failing. -/
theorem C4_counterexample :
    Reachable (add_many 99 init) ∧
      ¬ ∀ i ∈ get_position_param_digits (add_many 99 init), i ≤ 99 :=
  ⟨reachable_add_many 99 Reachable.init, by decide⟩

/-- C4 (amended): the invariant — slots 0 and 99 always exist, and all slot
indices are unique integers in `[0, 99]` — holds for every state reachable
from the initial state by `AddKey`, `DeleteKey`, `SetDeleteEnabled`, `Sort`
and `Sortkeys` toggles, provided every `AddKey` is invoked on a state that
still has a free index in the 100-slot space. -/
theorem C4_theorem (s : MetaRamp) (h : ReachableCap s) : KeyInv s := by
  induction h with
  | init => exact KeyInv_init
  | step _ hst ih => exact KeyInv_stepcap ih hst

/-- Witness for C4: the invariant at the initial state. -/
theorem C4_witness : KeyInv init :=
  C4_theorem init ReachableCap.init

/-! ### Claim C5 -/

/-- C5: for every state, deleting key 0 or key 99 is a guarded no-op: the
whole state is returned unchanged and the outcome is `noop`, not an
error. -/
theorem C5_theorem (s : MetaRamp) :
    OnDeleteKey 0 s = (DeleteOutcome.noop, s) ∧
      OnDeleteKey 99 s = (DeleteOutcome.noop, s) := by
  constructor <;> simp [OnDeleteKey]

/-! ### Claim C6 -/

/-- C6: deleting an existing non-reserved key destroys its delete pulse,
its color tuplet and its position parameter together: afterwards no
parameter group referencing the index remains on the page. -/
theorem C6_theorem (s : MetaRamp) (i : Nat) (h0 : i ≠ 0) (h99 : i ≠ 99)
    (hd : (s.page.any fun g => g.isDelete && g.idx == i) = true) :
    (OnDeleteKey i s).1 = DeleteOutcome.ok ∧
      ∀ g ∈ (OnDeleteKey i s).2.page, g.idx ≠ i := by
  have hguard : ¬(i = 0 ∨ i = 99) := by
    rintro (h | h)
    exacts [h0 h, h99 h]
  unfold OnDeleteKey
  rw [if_neg hguard, if_pos hd]
  refine ⟨rfl, ?_⟩
  intro g hg hgi
  unfold destroy_key_params at hg
  simp only [List.mem_filter] at hg
  obtain ⟨⟨⟨hmem, hnd⟩, hnc⟩, hnp⟩ := hg
  cases g with
  | position j v =>
    simp [PGroup.isPosition, PGroup.idx] at hnp
    exact hnp hgi
  | color j r gr bl al =>
    simp [PGroup.isColor, PGroup.idx] at hnc
    exact hnc hgi
  | delete j ro =>
    simp [PGroup.isDelete, PGroup.idx] at hnd
    exact hnd hgi

/-- Witness for C6: deleting key 1 from the {0, 1, 99} state succeeds. -/
theorem C6_witness : (OnDeleteKey 1 three_state).1 = DeleteOutcome.ok :=
  (C6_theorem three_state 1 (by decide) (by decide) (by decide)).1

/-! ### Claim C7 -/

set_option maxRecDepth 40000 in
/-- C7 counterexample: at a state occupying all 100 indices, `AddKey` does
not fail with a capacity error: it assigns index 100 — outside `[0, 99]` —
and creates the slot there. -/
theorem C7_counterexample :
    get_num_params full_state = 100 ∧
      (OnAddKey full_state).1 = 100 ∧
      posOf (OnAddKey full_state).2 100 = some 1 :=
  ⟨by decide, by decide, by decide⟩

/-- C7 (amended): `AddKey` never rejects.  On a state whose 100 position
parameters occupy every index of `[0, 99]`, it assigns `max + 1 = 100`,
beyond the index space, and the slot is created at that index. -/
theorem C7_theorem (s : MetaRamp) (hlen : get_num_params s = 100)
    (hall : ∀ j, j ≤ 99 → j ∈ get_position_param_digits s) :
    (OnAddKey s).1 = 100 ∧
      100 ∈ get_position_param_digits (OnAddKey s).2 := by
  have hdlen : (get_position_param_digits s).length = 100 := by
    rw [digits_length_eq]; exact hlen
  have hmiss : missing_numbers (get_position_param_digits s) = [] := by
    apply List.filter_eq_nil_iff.mpr
    intro a ha
    rw [hdlen, ideal_numbers_eq] at ha
    have ha99 : a ≤ 99 := by
      rcases List.mem_append.mp ha with h | h
      · have := List.mem_range.mp h; omega
      · simp at h; omega
    simp [hall a ha99]
  have hnext : next_idx (get_position_param_digits s) = 100 := by
    unfold next_idx
    rw [hmiss]
    show py_max (ideal_numbers (get_position_param_digits s).length).dropLast + 1 = 100
    rw [hdlen, ideal_numbers_eq, List.dropLast_concat]
    have h99 : List.range 100 = List.range (99 + 1) := rfl
    rw [h99, py_max_range]
  refine ⟨hnext, ?_⟩
  apply (digits_add s).mem_iff.mpr
  apply List.mem_append.mpr
  right
  rw [hnext]
  exact List.mem_singleton.mpr rfl

set_option maxRecDepth 40000 in
/-- Witness for C7: the amended theorem at the explicit full state. -/
theorem C7_witness : (OnAddKey full_state).1 = 100 :=
  (C7_theorem full_state (by decide) (by decide)).1

/-! ### Claim C8 -/

/-- C8: deleting an index that has no slot (in a state where the reserved
slots exist, so the index is not 0 or 99) reports `notFound` and leaves the
state completely unchanged. -/
theorem C8_theorem (s : MetaRamp) (i : Nat)
    (h0 : 0 ∈ get_position_param_digits s)
    (h99 : 99 ∈ get_position_param_digits s)
    (h : ∀ g ∈ s.page, g.idx ≠ i) :
    OnDeleteKey i s = (DeleteOutcome.notFound, s) := by
  have hi0 : i ≠ 0 := by
    obtain ⟨g, hg, _, hidx⟩ := mem_kind_digits.mp h0
    intro he
    exact h g hg (by rw [hidx, he])
  have hi99 : i ≠ 99 := by
    obtain ⟨g, hg, _, hidx⟩ := mem_kind_digits.mp h99
    intro he
    exact h g hg (by rw [hidx, he])
  have hguard : ¬(i = 0 ∨ i = 99) := by
    rintro (hh | hh)
    exacts [hi0 hh, hi99 hh]
  have hany : ¬(s.page.any fun g => g.isDelete && g.idx == i) = true := by
    intro hany
    obtain ⟨g, hg, hp⟩ := List.any_eq_true.mp hany
    simp only [Bool.and_eq_true, beq_iff_eq] at hp
    exact h g hg hp.2
  unfold OnDeleteKey
  rw [if_neg hguard, if_neg hany]
  rfl

/-- Witness for C8: deleting the absent index 5 from the {0, 1, 99}
state. -/
theorem C8_witness :
    OnDeleteKey 5 three_state = (DeleteOutcome.notFound, three_state) :=
  C8_theorem three_state 5 (by decide) (by decide) (by decide)

/-! ### Claim C9 -/

/-- C9: `SetDeleteEnabled b` arms (read-only = `!b`) every delete pulse
except those of slots 0 and 99, leaves the delete state of 0 and 99 and all
position and color data unchanged, and is idempotent. -/
theorem C9_theorem (s : MetaRamp) (b : Bool) :
    (∀ i, deleteROOf (OnEnableDelete b s) i =
        if i = 0 ∨ i = 99 then deleteROOf s i
        else (deleteROOf s i).map fun _ => !b) ∧
      (∀ i, posOf (OnEnableDelete b s) i = posOf s i) ∧
      (∀ i, colorOf (OnEnableDelete b s) i = colorOf s i) ∧
      OnEnableDelete b (OnEnableDelete b s) = OnEnableDelete b s :=
  ⟨deleteROOf_toggle b s, posOf_toggle b s, colorOf_toggle b s, enable_idem b s⟩

/-! ### Claim C10 -/

/-- C10: `SwitchKeyPositions` changes only the display order of the page:
the component parameters, the set of parameter groups, and each index's
position, color and delete data are all unchanged — in particular the
index-to-position mapping is identical before and after (the reordering
covering all slots, 0 and 99 included, is stated in `C1_theorem`'s amended
form via `position_info`). -/
theorem C10_theorem (s : MetaRamp) (hWF : WF s) :
    (SwitchKeyPositions s).Sortkeys = s.Sortkeys ∧
      (SwitchKeyPositions s).Newkeyposition = s.Newkeyposition ∧
      (SwitchKeyPositions s).Enabledelete = s.Enabledelete ∧
      (∀ g, g ∈ (SwitchKeyPositions s).page ↔ g ∈ s.page) ∧
      (∀ i, posOf (SwitchKeyPositions s) i = posOf s i) ∧
      (∀ i, colorOf (SwitchKeyPositions s) i = colorOf s i) ∧
      (∀ i, deleteROOf (SwitchKeyPositions s) i = deleteROOf s i) := by
  refine ⟨?_, ?_, ?_, fun g => switch_page_mem hWF, posOf_switch hWF,
    colorOf_switch hWF, deleteROOf_switch hWF⟩ <;>
  · unfold SwitchKeyPositions
    by_cases hflag : sort_keys_enabled s
    · rw [if_pos hflag]
    · rw [if_neg hflag]

/-- Witness for C10: the frame conditions at the concrete sorted-demo
state. -/
theorem C10_witness :
    posOf (SwitchKeyPositions ramp_state) 1 = posOf ramp_state 1 ∧
      deleteROOf (SwitchKeyPositions ramp_state) 99 = deleteROOf ramp_state 99 :=
  ⟨(C10_theorem ramp_state WF_ramp_state).2.2.2.2.1 1,
    (C10_theorem ramp_state WF_ramp_state).2.2.2.2.2.2 99⟩

end MetaRampExt
